import Mathlib

/-!
Shallow embedding of `tools/convert_sfx.py` (the Vex Defender sound-effect
conversion pipeline), together with theorems checking the specification's
claims about it.

Modelling conventions:
* Python integers are `Int` (unbounded, exact).
* Python `//` (floor division) is `Int.fdiv`.
* Python `int()` applied to a real value (truncation toward zero) is `qtrunc`.
* The float arithmetic in `downsample` (rate ratio cursor) and `normalize`
  (scale factor) is modelled with exact rationals `ℚ`.
* Python lists of samples are `List Int`.
* A raised exception is `Except.error` carrying the message.
-/

namespace ConvertSfx

/-- Constant `TARGET_RATE = 16000` (convert_sfx.py line 32). -/
def TARGET_RATE : Nat := 16000

/-- Constant `SILENCE_THRESHOLD = 800` (convert_sfx.py line 33). -/
def SILENCE_THRESHOLD : Int := 800

/-- Python `int()` on a real value: truncation toward zero. -/
def qtrunc (q : ℚ) : ℤ := if 0 ≤ q then ⌊q⌋ else ⌈q⌉

/-- The mono-downmix loop of `read_wav_mono` (lines 61-66): the interleaved
sample list is consumed `nch` entries at a time; each frame is summed and
floor-divided (Python `//`) by the channel count.  The source always calls
this with `0 < nch` and `nch ∣ samples.length` (WAV frames); outside that
domain the guard returns `[]`. -/
def downmix (samples : List Int) (nch : Nat) : List Int :=
  if _h : samples = [] ∨ nch = 0 then []
  else Int.fdiv (samples.take nch).sum nch :: downmix (samples.drop nch) nch
termination_by samples.length
decreasing_by
  simp only [List.length_drop]
  rcases not_or.mp _h with ⟨hs, hn⟩
  have h1 : 0 < samples.length := List.length_pos.mpr hs
  have h2 : 0 < nch := Nat.pos_of_ne_zero hn
  omega

/-- The cursor loop of `downsample` (lines 76-78): `q` is the rate ratio
`src_rate / dst_rate`; while `int(i) < len(samples)` the sample at index
`int(i)` is emitted and the cursor advances by `q`.  The cursor is never
negative in any reachable call, so Python's `int(i)` is `(⌊i⌋).toNat`.
The extra guard `0 < q` makes the model total (with a non-positive ratio the
source would loop forever, which cannot arise from positive rates). -/
def downsampleAux (samples : List Int) (q : ℚ) (i : ℚ) : List Int :=
  if h : 0 < q ∧ (⌊i⌋).toNat < samples.length then
    samples.get ⟨(⌊i⌋).toNat, h.2⟩ :: downsampleAux samples q (i + q)
  else []
termination_by (⌈((samples.length : ℚ) - i) / q⌉).toNat
decreasing_by
  obtain ⟨hq, hlt⟩ := h
  have hiL : i < (samples.length : ℚ) := by
    rcases le_or_lt 0 i with hi | hi
    · have hf : 0 ≤ ⌊i⌋ := Int.floor_nonneg.mpr hi
      have h3 : ⌊i⌋ < (samples.length : ℤ) := by omega
      have h4 : (⌊i⌋ : ℚ) + 1 ≤ (samples.length : ℚ) := by exact_mod_cast h3
      calc i < ⌊i⌋ + 1 := Int.lt_floor_add_one i
      _ ≤ (samples.length : ℚ) := h4
    · have h0 : 0 ≤ (samples.length : ℚ) := by positivity
      linarith [hi, h0]
  have hq0 : q ≠ 0 := ne_of_gt hq
  have hstep : ((samples.length : ℚ) - (i + q)) / q
      = ((samples.length : ℚ) - i) / q - 1 := by
    field_simp
    ring
  rw [hstep, Int.ceil_sub_one]
  have hpos : 0 < ((samples.length : ℚ) - i) / q := div_pos (by linarith) hq
  have hge : 0 < ⌈((samples.length : ℚ) - i) / q⌉ := Int.ceil_pos.mpr hpos
  omega

/-- Function `downsample` (lines 71-79): nearest-neighbor decimation driven by the
fractional cursor, starting at `i = 0.0`. -/
def downsample (samples : List Int) (src_rate dst_rate : Nat) : List Int :=
  downsampleAux samples ((src_rate : ℚ) / (dst_rate : ℚ)) 0

/-- Function `trim_silence` (lines 82-91): scan for the first sample whose absolute
value exceeds `threshold` (`start` stays `0` if none does), back off by the
16-sample lead-in clamped at `0` (`max(0, start - 16)` is `Nat` subtraction),
and keep the suffix from there. -/
def trim_silence (samples : List Int) (threshold : Int) : List Int :=
  let start : Nat := (samples.findIdx? (fun s => decide (threshold < |s|))).getD 0
  samples.drop (start - 16)

/-- The peak computation of `normalize` (line 96):
`max(abs(s) for s in samples) if samples else 1`. -/
def peakOf (samples : List Int) : ℤ :=
  match samples.map (fun s => |s|) with
  | [] => 1
  | a :: rest => rest.foldl max a

/-- The clamp of `normalize` (line 100): `max(-32768, min(32767, x))`. -/
def clamp16 (x : ℤ) : ℤ := max (-32768) (min 32767 x)

/-- Function `normalize` (lines 94-100): if the peak is zero the buffer is returned
as is; otherwise every sample is scaled by `target_peak / peak`, truncated
toward zero (`int(...)`) and clamped into the 16-bit range. -/
def normalize (samples : List Int) (target_peak : ℤ) : List Int :=
  let peak := peakOf samples
  if peak = 0 then samples
  else samples.map (fun (s : ℤ) => clamp16 (qtrunc ((s : ℚ) * ((target_peak : ℚ) / (peak : ℚ)))))

/-- Function `align_brr` (lines 103-108): pad with zeros to a multiple of 16. -/
def align_brr (samples : List Int) : List Int :=
  let remainder := samples.length % 16
  if remainder ≠ 0 then samples ++ List.replicate (16 - remainder) 0 else samples

/-- What `main` finds at one entry's source path: the file is absent, or
`wave.open` raises (`wave.Error`, the spec's FormatError), or it decodes to a
PCM payload of interleaved samples with a channel count and rate. -/
inductive Source
  | missing
  | formatError (msg : String)
  | pcm (raw : List Int) (nch : Nat) (rate : Nat)
deriving DecidableEq

/-- One row of `MAPPINGS` (lines 36-46) together with the external world's
response for it: what the decoder finds at the source path, the per-entry
maximum duration, and snesbrr's outcome (`some size` when `convert_to_brr`
succeeds and the `.brr` file has that byte size, `none` when it fails). -/
structure Entry where
  src : Source
  max_dur : ℚ
  brr : Option Nat
deriving DecidableEq

/-- The aggregate counters of `main` (lines 137-138). -/
structure BatchState where
  success : Nat
  total_brr_size : Nat
deriving DecidableEq

/-- The sample pipeline applied to one decoded mono buffer inside `main`'s
loop (lines 156-172): downsample to `TARGET_RATE`, trim leading silence at
`SILENCE_THRESHOLD`, truncate to `int(max_dur * TARGET_RATE)` samples,
normalize to the default peak 28000, align to BRR blocks. -/
def pipeline (mono : List Int) (rate : Nat) (max_dur : ℚ) : List Int :=
  align_brr (normalize
    ((trim_silence (downsample mono rate TARGET_RATE) SILENCE_THRESHOLD).take
      (qtrunc (max_dur * (TARGET_RATE : ℚ))).toNat) 28000)

/-- The body of `main`'s per-entry loop (lines 140-185).  A missing source
`continue`s without touching the counters; a decoder exception propagates
(there is no `try`/`except` in `main`, so it escapes the loop); otherwise
the pipeline output is written and snesbrr's outcome decides whether the
success and size counters advance (a snesbrr failure also `continue`s). -/
def runEntry (st : BatchState) (e : Entry) : Except String BatchState :=
  match e.src with
  | .missing => .ok st
  | .formatError msg => .error msg
  | .pcm raw nch rate =>
      let _out := pipeline (downmix raw nch) rate e.max_dur
      match e.brr with
      | some sz => .ok ⟨st.success + 1, st.total_brr_size + sz⟩
      | none => .ok st

/-- The loop of `main` over the mapping table, starting from counters `st`:
each entry is processed in order, and an uncaught exception from any entry
aborts the whole run. -/
def runBatchFrom (st : BatchState) : List Entry → Except String BatchState
  | [] => .ok st
  | e :: rest =>
      match runEntry st e with
      | .ok st2 => runBatchFrom st2 rest
      | .error msg => .error msg

/-- Function `main` (lines 134-190): run the whole mapping table from zeroed counters. -/
def runBatch (entries : List Entry) : Except String BatchState :=
  runBatchFrom ⟨0, 0⟩ entries

/-- The maximum absolute amplitude of a buffer (`0` for the empty buffer);
the measuring function used to state the normalization guarantee. -/
def maxAbs (l : List Int) : ℤ := (l.map (fun s => |s|)).foldl max 0

/-- An entry whose source file exists but is rejected by `wave.open`
(a FormatError), while snesbrr would succeed on it. -/
def badFormatEntry : Entry := ⟨.formatError "file does not start with RIFF id", 12/100, some 9⟩

/-- An entry that decodes fine and whose snesbrr invocation succeeds with a
42-byte output. -/
def okEntry : Entry := ⟨.pcm [1000, -1000] 2 32000, 12/100, some 42⟩

/-! ### Helper lemmas about `List.foldl max` -/

lemma foldl_max_le {l : List ℤ} {a b : ℤ} (ha : a ≤ b) (hl : ∀ x ∈ l, x ≤ b) :
    l.foldl max a ≤ b := by
  induction l generalizing a with
  | nil => exact ha
  | cons x xs ih =>
    simp only [List.foldl_cons]
    exact ih (max_le ha (hl x (List.mem_cons_self x xs)))
      fun y hy => hl y (List.mem_cons_of_mem _ hy)

lemma le_foldl_max_init {l : List ℤ} {a b : ℤ} (h : b ≤ a) : b ≤ l.foldl max a := by
  induction l generalizing a with
  | nil => exact h
  | cons x xs ih => exact ih (le_trans h (le_max_left a x))

lemma le_foldl_max_of_mem {l : List ℤ} {x : ℤ} (a : ℤ) (hx : x ∈ l) :
    x ≤ l.foldl max a := by
  induction l generalizing a with
  | nil => cases hx
  | cons y ys ih =>
    simp only [List.foldl_cons]
    rcases List.mem_cons.mp hx with rfl | h2
    · exact le_foldl_max_init (le_max_right a x)
    · exact ih _ h2

lemma foldl_max_choice (l : List ℤ) (a : ℤ) : l.foldl max a = a ∨ l.foldl max a ∈ l := by
  induction l generalizing a with
  | nil => exact Or.inl rfl
  | cons x xs ih =>
    simp only [List.foldl_cons]
    rcases ih (max a x) with h | h
    · rcases max_choice a x with hm | hm
      · exact Or.inl (h.trans hm)
      · exact Or.inr (by rw [h, hm]; exact List.mem_cons_self x xs)
    · exact Or.inr (List.mem_cons_of_mem _ h)

/-! ### Helper lemmas about `qtrunc`, `clamp16`, `peakOf` -/

lemma qtrunc_intCast (n : ℤ) : qtrunc (n : ℚ) = n := by
  unfold qtrunc
  split <;> simp

lemma abs_qtrunc_le (q : ℚ) : (|qtrunc q| : ℚ) ≤ |q| := by
  unfold qtrunc
  split
  next h =>
    rw [abs_of_nonneg h]
    have h1 : (0:ℚ) ≤ ((⌊q⌋ : ℤ) : ℚ) := by
      exact_mod_cast Int.floor_nonneg.mpr h
    rw [abs_of_nonneg h1]
    exact Int.floor_le q
  next h =>
    have hq : q < 0 := lt_of_not_ge h
    rw [abs_of_neg hq]
    have h1 : ((⌈q⌉ : ℤ) : ℚ) ≤ 0 := by
      exact_mod_cast Int.ceil_le.mpr (show q ≤ ((0:ℤ):ℚ) by exact_mod_cast hq.le)
    rw [abs_of_nonpos h1]
    have := Int.le_ceil q
    linarith

lemma clamp16_le : clamp16 x ≤ 32767 := by
  unfold clamp16
  exact max_le (by norm_num) (min_le_left _ _)

lemma clamp16_ge : -32768 ≤ clamp16 x := le_max_left _ _

lemma clamp16_eq_self {x : ℤ} (h1 : -32768 ≤ x) (h2 : x ≤ 32767) : clamp16 x = x := by
  unfold clamp16
  rw [min_eq_right h2, max_eq_right h1]

lemma le_peakOf {samples : List Int} {x : ℤ} (hx : x ∈ samples) : |x| ≤ peakOf samples := by
  unfold peakOf
  cases samples with
  | nil => cases hx
  | cons a rest =>
    simp only [List.map_cons]
    rcases List.mem_cons.mp hx with rfl | h2
    · exact le_foldl_max_init le_rfl
    · exact le_foldl_max_of_mem _ (List.mem_map_of_mem _ h2)

lemma peakOf_attained {samples : List Int} (h : samples ≠ []) :
    ∃ x ∈ samples, |x| = peakOf samples := by
  unfold peakOf
  cases samples with
  | nil => exact absurd rfl h
  | cons a rest =>
    simp only [List.map_cons]
    rcases foldl_max_choice (rest.map (fun s => |s|)) |a| with hc | hc
    · exact ⟨a, List.mem_cons_self a rest, hc.symm⟩
    · rcases List.mem_map.mp hc with ⟨y, hy, hval⟩
      exact ⟨y, List.mem_cons_of_mem _ hy, hval⟩

lemma peakOf_nonneg {samples : List Int} (h : samples ≠ []) : 0 ≤ peakOf samples := by
  obtain ⟨x, hx, hval⟩ := peakOf_attained h
  exact hval ▸ abs_nonneg x

/-! ### Normalizer lemmas -/

lemma normalize_eq_map {samples : List Int} {tp : ℤ} (hp : peakOf samples ≠ 0) :
    normalize samples tp = samples.map
      (fun (s : ℤ) => clamp16 (qtrunc ((s : ℚ) * ((tp : ℚ) / ((peakOf samples : ℤ) : ℚ))))) := by
  simp only [normalize]
  rw [if_neg hp]

lemma normalize_elem_abs_le {samples : List Int} {tp : ℤ} (hs : samples ≠ [])
    (hp : peakOf samples ≠ 0) (h1 : 0 < tp) (h2 : tp < 32768)
    {s : ℤ} (hmem : s ∈ samples) :
    |clamp16 (qtrunc ((s : ℚ) * ((tp : ℚ) / ((peakOf samples : ℤ) : ℚ))))| ≤ tp := by
  have hppos : 0 < peakOf samples := lt_of_le_of_ne (peakOf_nonneg hs) (Ne.symm hp)
  have hpq : (0:ℚ) < ((peakOf samples : ℤ) : ℚ) := by exact_mod_cast hppos
  have habs : |s| ≤ peakOf samples := le_peakOf hmem
  have hscale : (0:ℚ) ≤ (tp : ℚ) / ((peakOf samples : ℤ) : ℚ) :=
    div_nonneg (by exact_mod_cast h1.le) hpq.le
  have hqabs : |(s : ℚ) * ((tp : ℚ) / ((peakOf samples : ℤ) : ℚ))| ≤ (tp : ℚ) := by
    rw [abs_mul, abs_of_nonneg hscale]
    have hcancel : ((peakOf samples : ℤ) : ℚ) * ((tp : ℚ) / ((peakOf samples : ℤ) : ℚ))
        = (tp : ℚ) := by
      field_simp
    calc |(s : ℚ)| * ((tp : ℚ) / ((peakOf samples : ℤ) : ℚ))
        ≤ ((peakOf samples : ℤ) : ℚ) * ((tp : ℚ) / ((peakOf samples : ℤ) : ℚ)) := by
          apply mul_le_mul_of_nonneg_right _ hscale
          have : ((|s| : ℤ) : ℚ) ≤ ((peakOf samples : ℤ) : ℚ) := by exact_mod_cast habs
          calc |(s : ℚ)| = ((|s| : ℤ) : ℚ) := by push_cast; ring
          _ ≤ _ := this
      _ = (tp : ℚ) := hcancel
  have htr : |qtrunc ((s : ℚ) * ((tp : ℚ) / ((peakOf samples : ℤ) : ℚ)))| ≤ tp := by
    have h3 := abs_qtrunc_le ((s : ℚ) * ((tp : ℚ) / ((peakOf samples : ℤ) : ℚ)))
    have h4 : (|qtrunc ((s : ℚ) * ((tp : ℚ) / ((peakOf samples : ℤ) : ℚ)))| : ℚ) ≤ (tp : ℚ) := by
      calc (|qtrunc ((s : ℚ) * ((tp : ℚ) / ((peakOf samples : ℤ) : ℚ)))| : ℚ)
          = |((qtrunc ((s : ℚ) * ((tp : ℚ) / ((peakOf samples : ℤ) : ℚ))) : ℤ) : ℚ)| := by
            ring
        _ ≤ _ := le_trans h3 hqabs
    exact_mod_cast h4
  have h5 := abs_le.mp htr
  rw [clamp16_eq_self (by omega) (by omega)]
  exact htr

lemma normalize_attains {samples : List Int} {tp : ℤ} (hs : samples ≠ [])
    (hp : peakOf samples ≠ 0) (h1 : 0 < tp) (h2 : tp < 32768) :
    ∃ s ∈ samples,
      |clamp16 (qtrunc ((s : ℚ) * ((tp : ℚ) / ((peakOf samples : ℤ) : ℚ))))| = tp := by
  obtain ⟨y, hy, hval⟩ := peakOf_attained hs
  have hppos : 0 < peakOf samples := lt_of_le_of_ne (peakOf_nonneg hs) (Ne.symm hp)
  have hpq : ((peakOf samples : ℤ) : ℚ) ≠ 0 := by exact_mod_cast hp
  refine ⟨y, hy, ?_⟩
  rcases abs_eq (peakOf_nonneg hs) |>.mp hval with rfl | rfl
  · have hc : ((peakOf samples : ℤ) : ℚ) * ((tp : ℚ) / ((peakOf samples : ℤ) : ℚ))
        = ((tp : ℤ) : ℚ) := by field_simp
    rw [hc, qtrunc_intCast, clamp16_eq_self (by omega) (by omega), abs_of_pos h1]
  · have hc : ((-(peakOf samples) : ℤ) : ℚ) * ((tp : ℚ) / ((peakOf samples : ℤ) : ℚ))
        = ((-tp : ℤ) : ℚ) := by push_cast; field_simp; ring
    rw [hc, qtrunc_intCast, clamp16_eq_self (by omega) (by omega), abs_neg, abs_of_pos h1]

lemma normalize_maxAbs {samples : List Int} {tp : ℤ} (hs : samples ≠ [])
    (hp : peakOf samples ≠ 0) (h1 : 0 < tp) (h2 : tp < 32768) :
    maxAbs (normalize samples tp) = tp := by
  rw [normalize_eq_map hp]
  unfold maxAbs
  apply le_antisymm
  · apply foldl_max_le h1.le
    intro x hx
    rcases List.mem_map.mp hx with ⟨z, hz, rfl⟩
    rcases List.mem_map.mp hz with ⟨s, hsmem, rfl⟩
    exact normalize_elem_abs_le hs hp h1 h2 hsmem
  · obtain ⟨s, hsmem, hval⟩ := normalize_attains hs hp h1 h2
    apply le_foldl_max_of_mem 0
    apply List.mem_map.mpr
    refine ⟨clamp16 (qtrunc ((s : ℚ) * ((tp : ℚ) / ((peakOf samples : ℤ) : ℚ)))), ?_, hval⟩
    exact List.mem_map_of_mem _ hsmem

/-- C3: for every nonempty buffer with nonzero peak and a positive target
peak strictly below 32768, after `normalize` the maximum absolute amplitude
of the output equals `target_peak` within a truncation error of at most 1
(in the exact-rational model the error is in fact 0). -/
theorem normalize_peak_within_one (samples : List Int) (tp : ℤ) (hs : samples ≠ [])
    (hp : peakOf samples ≠ 0) (h1 : 0 < tp) (h2 : tp < 32768) :
    |maxAbs (normalize samples tp) - tp| ≤ 1 := by
  rw [normalize_maxAbs hs hp h1 h2]
  simp

theorem normalize_peak_within_one_witness :
    (([(3:ℤ)] : List Int) ≠ [] ∧ peakOf [(3:ℤ)] ≠ 0 ∧ (0:ℤ) < 28000 ∧ (28000:ℤ) < 32768)
  ∧ |maxAbs (normalize [(3:ℤ)] 28000) - 28000| ≤ 1 :=
  ⟨⟨by decide, by decide, by decide, by decide⟩,
    normalize_peak_within_one _ _ (by decide) (by decide) (by decide) (by decide)⟩

/-- C5: the empty buffer and any buffer of peak zero pass through
`normalize` unmodified (no division-by-zero branch is ever taken). -/
theorem normalize_silent_passthrough (samples : List Int) (tp : ℤ)
    (h : samples = [] ∨ peakOf samples = 0) :
    normalize samples tp = samples := by
  rcases h with rfl | hp
  · simp [normalize, peakOf]
  · simp [normalize, hp]

theorem normalize_silent_passthrough_witness :
    (([(0:ℤ), 0] : List Int) = [] ∨ peakOf [(0:ℤ), 0] = 0)
  ∧ normalize [(0:ℤ), 0] 28000 = [(0:ℤ), 0] :=
  ⟨Or.inr (by decide), normalize_silent_passthrough _ _ (Or.inr (by decide))⟩

/-! ### SilenceTrimmer lemmas -/

/-- C4: if no sample's absolute value exceeds the threshold, `trim_silence`
returns the buffer unmodified (never an empty buffer). -/
theorem trim_silence_quiet_passthrough (samples : List Int) (threshold : ℤ)
    (h : ∀ s ∈ samples, |s| ≤ threshold) :
    trim_silence samples threshold = samples := by
  have hnone : samples.findIdx? (fun s => decide (threshold < |s|)) = none := by
    rw [List.findIdx?_eq_none_iff]
    intro x hx
    simp [not_lt.mpr (h x hx)]
  simp only [trim_silence]
  rw [hnone]
  simp

theorem trim_silence_quiet_passthrough_witness :
    (∀ s ∈ ([(5:ℤ), -3, 0] : List Int), |s| ≤ 800)
  ∧ trim_silence [(5:ℤ), -3, 0] 800 = [(5:ℤ), -3, 0] :=
  ⟨by decide, trim_silence_quiet_passthrough _ _ (by decide)⟩

lemma findIdx?_first {α : Type} (p : α → Bool) :
    ∀ (l : List α) (k : Nat) (hk : k < l.length),
      p (l.get ⟨k, hk⟩) = true →
      (∀ j (hj : j < k), p (l.get ⟨j, Nat.lt_trans hj hk⟩) = false) →
      l.findIdx? p = some k := by
  intro l
  induction l with
  | nil => intro k hk; exact absurd hk (Nat.not_lt_zero k)
  | cons x xs ih =>
    intro k hk hp hbef
    cases k with
    | zero =>
      have hx : p x = true := hp
      simp [List.findIdx?_cons, hx]
    | succ j =>
      have hx : p x = false := hbef 0 (Nat.succ_pos j)
      have hk2 : j < xs.length := Nat.lt_of_succ_lt_succ hk
      have hrec : xs.findIdx? p = some j := by
        apply ih j hk2
        · exact hp
        · intro j2 hj2
          exact hbef (j2 + 1) (Nat.succ_lt_succ hj2)
      simp [List.findIdx?_cons, hx, List.findIdx?_succ, hrec]

/-- C6: if some sample's absolute value exceeds the threshold and `k` is the
index of the first such sample, `trim_silence` keeps the suffix starting at
`max(0, k - 16)` (here `k - 16` in truncated `Nat` subtraction). -/
theorem trim_silence_first_hit (samples : List Int) (threshold : ℤ) (k : Nat)
    (hk : k < samples.length)
    (hit : threshold < |samples.get ⟨k, hk⟩|)
    (hbefore : ∀ j (hj : j < k), |samples.get ⟨j, Nat.lt_trans hj hk⟩| ≤ threshold) :
    trim_silence samples threshold = samples.drop (k - 16) := by
  have hsome : samples.findIdx? (fun s => decide (threshold < |s|)) = some k := by
    apply findIdx?_first _ _ k hk
    · simpa using hit
    · intro j hj
      simpa using not_lt.mpr (hbefore j hj)
  simp only [trim_silence]
  rw [hsome]
  rfl

theorem trim_silence_first_hit_witness :
    trim_silence (List.replicate 100 (0:ℤ) ++ [801, 5]) 800
      = (List.replicate 100 (0:ℤ) ++ [801, 5]).drop 84 :=
  trim_silence_first_hit _ _ 100 (by decide) (by decide) (by decide)

/-! ### BlockAligner -/

/-- C7: `align_brr` always emits a length divisible by 16, grows by fewer
than 16 samples, only ever appends zero samples, and leaves an already
aligned buffer (including the empty one) unchanged. -/
theorem align_brr_spec (samples : List Int) :
    (align_brr samples).length % 16 = 0
  ∧ (align_brr samples).length - samples.length < 16
  ∧ (∃ padding : Nat, align_brr samples = samples ++ List.replicate padding 0)
  ∧ (samples.length % 16 = 0 → align_brr samples = samples) := by
  simp only [align_brr]
  by_cases h : samples.length % 16 = 0
  · rw [if_neg (by omega)]
    exact ⟨h, by omega, ⟨0, by simp⟩, fun _ => rfl⟩
  · rw [if_pos (by omega)]
    refine ⟨?_, ?_, ⟨16 - samples.length % 16, rfl⟩, fun hc => absurd hc h⟩
    · simp only [List.length_append, List.length_replicate]
      omega
    · simp only [List.length_append, List.length_replicate]
      omega

theorem align_brr_spec_witness :
    ((List.replicate 16 (7:ℤ)).length % 16 = 0)
  ∧ align_brr (List.replicate 16 (7:ℤ)) = List.replicate 16 (7:ℤ) :=
  ⟨by decide, (align_brr_spec _).2.2.2 (by decide)⟩

/-! ### Resampler lemmas -/

lemma downsampleAux_ratio_one (samples : List Int) :
    ∀ (fuel k : Nat), samples.length - k ≤ fuel →
      downsampleAux samples 1 (k : ℚ) = samples.drop k := by
  intro fuel
  induction fuel with
  | zero =>
    intro k hfuel
    have hk : samples.length ≤ k := by omega
    rw [downsampleAux, dif_neg (by simp; omega)]
    exact (List.drop_eq_nil_of_le hk).symm
  | succ n ih =>
    intro k hfuel
    by_cases hk : k < samples.length
    · rw [downsampleAux]
      simp only [Int.floor_natCast, Int.toNat_natCast]
      rw [dif_pos ⟨by norm_num, hk⟩]
      have hcast : (k : ℚ) + 1 = ((k + 1 : ℕ) : ℚ) := by push_cast; ring
      rw [hcast, ih (k + 1) (by omega)]
      simp only [List.get_eq_getElem]
      exact (List.drop_eq_getElem_cons hk).symm
    · rw [downsampleAux, dif_neg (by simp; omega)]
      exact (List.drop_eq_nil_of_le (by omega)).symm

/-- C9: resampling with equal source and destination rates is the identity
(the ratio is 1 and the cursor advances by whole steps). -/
theorem downsample_same_rate (samples : List Int) (r : Nat) (hr : 0 < r) :
    downsample samples r r = samples := by
  unfold downsample
  have hq : ((r : ℚ) / (r : ℚ)) = 1 := div_self (by exact_mod_cast hr.ne')
  rw [hq]
  have h := downsampleAux_ratio_one samples samples.length 0 (by omega)
  simpa using h

theorem downsample_same_rate_witness :
    (0 < 3) ∧ downsample [(5:ℤ), 6, 7] 3 3 = [(5:ℤ), 6, 7] :=
  ⟨by decide, downsample_same_rate _ 3 (by decide)⟩

/-- C10: for a nonempty input and positive rates the resampler output is
nonempty and starts with the input's first sample (the cursor starts at 0). -/
theorem downsample_keeps_onset (samples : List Int) (src dst : Nat)
    (hs : samples ≠ []) (h1 : 0 < src) (h2 : 0 < dst) :
    downsample samples src dst ≠ []
  ∧ (downsample samples src dst).head? = samples.head? := by
  obtain ⟨a, t, rfl⟩ := List.exists_cons_of_ne_nil hs
  unfold downsample
  rw [downsampleAux]
  have hq : (0:ℚ) < (src : ℚ) / (dst : ℚ) :=
    div_pos (by exact_mod_cast h1) (by exact_mod_cast h2)
  rw [dif_pos ⟨hq, by simp⟩]
  exact ⟨List.cons_ne_nil _ _, by simp⟩

theorem downsample_keeps_onset_witness :
    (([(9:ℤ)] : List Int) ≠ [] ∧ 0 < 44100 ∧ 0 < 16000)
  ∧ (downsample [(9:ℤ)] 44100 16000 ≠ []
     ∧ (downsample [(9:ℤ)] 44100 16000).head? = ([(9:ℤ)] : List Int).head?) :=
  ⟨⟨by decide, by decide, by decide⟩,
    downsample_keeps_onset _ _ _ (by decide) (by decide) (by decide)⟩

/-! ### Downmixer lemmas -/

/-- C2: on frame-aligned input the downmix loop emits, for every frame, the
frame sum floor-divided by the channel count; in particular every stereo
frame `(a, b)` yields `(a + b).fdiv 2`, so `(100, -101)` yields `-1`, not
`0`. -/
theorem downmix_floor_div :
    (∀ (frames : List (List Int)) (nch : Nat), 0 < nch →
      (∀ f ∈ frames, f.length = nch) →
      downmix frames.flatten nch = frames.map (fun f => Int.fdiv f.sum (nch : ℤ)))
  ∧ (∀ a b : ℤ, downmix [a, b] 2 = [Int.fdiv (a + b) 2])
  ∧ downmix [(100:ℤ), -101] 2 = [-1] := by
  have hgen : ∀ (frames : List (List Int)) (nch : Nat), 0 < nch →
      (∀ f ∈ frames, f.length = nch) →
      downmix frames.flatten nch = frames.map (fun f => Int.fdiv f.sum (nch : ℤ)) := by
    intro frames nch hn hf
    induction frames with
    | nil => simp [downmix]
    | cons f rest ih =>
      have hflen : f.length = nch := hf f (List.mem_cons_self f rest)
      have hfne : f ≠ [] := by
        intro hcontra
        rw [hcontra] at hflen
        simp at hflen
        omega
      rw [List.flatten_cons, downmix]
      have hguard : ¬ (f ++ rest.flatten = [] ∨ nch = 0) := by
        push_neg
        refine ⟨fun hcontra => hfne (List.append_eq_nil.mp hcontra).1, by omega⟩
      rw [dif_neg hguard, List.take_left' hflen, List.drop_left' hflen,
        ih (fun g hg => hf g (List.mem_cons_of_mem _ hg))]
      rfl
  have hstereo : ∀ a b : ℤ, downmix [a, b] 2 = [Int.fdiv (a + b) 2] := by
    intro a b
    have h := hgen [[a, b]] 2 (by norm_num) (by simp)
    simpa using h
  refine ⟨hgen, hstereo, ?_⟩
  rw [hstereo 100 (-101)]
  decide

theorem downmix_floor_div_witness :
    downmix ([[(100:ℤ), -101], [5, 7]] : List (List Int)).flatten 2
      = ([[(100:ℤ), -101], [5, 7]] : List (List Int)).map
          (fun f => Int.fdiv f.sum ((2 : Nat) : ℤ)) :=
  downmix_floor_div.1 _ 2 (by decide) (by decide)

/-! ### Range preservation (C8) -/

lemma sum_bounds (l : List ℤ) (lo hi : ℤ) (h : ∀ x ∈ l, lo ≤ x ∧ x ≤ hi) :
    lo * l.length ≤ l.sum ∧ l.sum ≤ hi * l.length := by
  induction l with
  | nil => simp
  | cons x xs ih =>
    have hx := h x (List.mem_cons_self x xs)
    have hxs := ih fun y hy => h y (List.mem_cons_of_mem _ hy)
    simp only [List.sum_cons, List.length_cons]
    constructor
    · have hr : lo * ((xs.length : ℤ) + 1) = lo * xs.length + lo := by ring
      push_cast
      push_cast at hxs
      omega
    · have hr : hi * ((xs.length : ℤ) + 1) = hi * xs.length + hi := by ring
      push_cast
      push_cast at hxs
      omega

lemma fdiv_range {s : ℤ} {nch : Nat} (hn : 0 < nch)
    (hlo : -32768 * (nch : ℤ) ≤ s) (hhi : s ≤ 32767 * (nch : ℤ)) :
    -32768 ≤ Int.fdiv s (nch : ℤ) ∧ Int.fdiv s (nch : ℤ) ≤ 32767 := by
  have hpos : (0:ℤ) < (nch : ℤ) := by exact_mod_cast hn
  rw [Int.fdiv_eq_ediv _ hpos.le]
  constructor
  · have h1 : (-32768 * (nch : ℤ)) / (nch : ℤ) ≤ s / (nch : ℤ) := Int.ediv_le_ediv hpos hlo
    rwa [Int.mul_ediv_cancel _ hpos.ne'] at h1
  · have h1 : s / (nch : ℤ) ≤ (32767 * (nch : ℤ)) / (nch : ℤ) := Int.ediv_le_ediv hpos hhi
    rwa [Int.mul_ediv_cancel _ hpos.ne'] at h1

lemma downmix_range (samples : List Int) (nch : Nat) :
    (∀ s ∈ samples, -32768 ≤ s ∧ s ≤ 32767) →
    ∀ x ∈ downmix samples nch, -32768 ≤ x ∧ x ≤ 32767 := by
  induction samples, nch using downmix.induct with
  | case1 samples nch hguard =>
    intro h x hx
    rw [downmix, dif_pos hguard] at hx
    cases hx
  | case2 samples nch hguard ih =>
    intro h x hx
    rw [downmix, dif_neg hguard] at hx
    rcases List.mem_cons.mp hx with rfl | hx2
    · have hn : 0 < nch := Nat.pos_of_ne_zero fun h0 => hguard (Or.inr h0)
      have hb := sum_bounds (samples.take nch) (-32768) 32767
        fun y hy => h y (List.mem_of_mem_take hy)
      have hlen : ((samples.take nch).length : ℤ) ≤ (nch : ℤ) := by
        simp only [List.length_take]
        exact_mod_cast Nat.min_le_left _ _
      have hlennn : (0:ℤ) ≤ ((samples.take nch).length : ℤ) := by positivity
      apply fdiv_range hn
      · calc -32768 * (nch : ℤ) ≤ -32768 * ((samples.take nch).length : ℤ) := by nlinarith
        _ ≤ (samples.take nch).sum := hb.1
      · calc (samples.take nch).sum ≤ 32767 * ((samples.take nch).length : ℤ) := hb.2
        _ ≤ 32767 * (nch : ℤ) := by nlinarith
    · exact ih (fun y hy => h y (List.mem_of_mem_drop hy)) x hx2

lemma downsampleAux_subset (samples : List Int) (q : ℚ) :
    ∀ (i : ℚ), ∀ x ∈ downsampleAux samples q i, x ∈ samples := by
  intro i
  induction i using downsampleAux.induct samples q with
  | case1 i hcond ih =>
    intro x hx
    rw [downsampleAux, dif_pos hcond] at hx
    rcases List.mem_cons.mp hx with rfl | hx2
    · exact List.get_mem _ _ _
    · exact ih x hx2
  | case2 i hcond =>
    intro x hx
    rw [downsampleAux, dif_neg hcond] at hx
    cases hx

/-- C8: every pipeline stage preserves the 16-bit amplitude-range invariant:
from an input whose samples lie in `[-32768, 32767]`, the downmix, the
resampler, the silence trimmer, the duration truncation, `normalize`, and
`align_brr` each produce samples in `[-32768, 32767]`. -/
theorem stage_range_preservation (l : List Int)
    (h : ∀ s ∈ l, -32768 ≤ s ∧ s ≤ 32767) :
    (∀ nch, ∀ x ∈ downmix l nch, -32768 ≤ x ∧ x ≤ 32767)
  ∧ (∀ src dst, ∀ x ∈ downsample l src dst, -32768 ≤ x ∧ x ≤ 32767)
  ∧ (∀ threshold, ∀ x ∈ trim_silence l threshold, -32768 ≤ x ∧ x ≤ 32767)
  ∧ (∀ n, ∀ x ∈ l.take n, -32768 ≤ x ∧ x ≤ 32767)
  ∧ (∀ tp, ∀ x ∈ normalize l tp, -32768 ≤ x ∧ x ≤ 32767)
  ∧ (∀ x ∈ align_brr l, -32768 ≤ x ∧ x ≤ 32767) := by
  refine ⟨fun nch => downmix_range l nch h, ?_, ?_, ?_, ?_, ?_⟩
  · intro src dst x hx
    unfold downsample at hx
    exact h x (downsampleAux_subset l _ 0 x hx)
  · intro threshold x hx
    simp only [trim_silence] at hx
    exact h x (List.mem_of_mem_drop hx)
  · intro n x hx
    exact h x (List.mem_of_mem_take hx)
  · intro tp x hx
    by_cases hp : peakOf l = 0
    · simp only [normalize] at hx
      rw [if_pos hp] at hx
      exact h x hx
    · simp only [normalize] at hx
      rw [if_neg hp] at hx
      rcases List.mem_map.mp hx with ⟨s, hsmem, rfl⟩
      exact ⟨clamp16_ge, clamp16_le⟩
  · intro x hx
    simp only [align_brr] at hx
    by_cases hr : l.length % 16 = 0
    · rw [if_neg (by omega)] at hx
      exact h x hx
    · rw [if_pos (by omega)] at hx
      rcases List.mem_append.mp hx with hx1 | hx2
      · exact h x hx1
      · rw [List.eq_of_mem_replicate hx2]
        exact ⟨by norm_num, by norm_num⟩

theorem stage_range_preservation_witness :
    (∀ s ∈ ([(100:ℤ), -32768, 32767] : List Int), -32768 ≤ s ∧ s ≤ 32767)
  ∧ (∀ x ∈ align_brr [(100:ℤ), -32768, 32767], -32768 ≤ x ∧ x ≤ 32767) :=
  ⟨by decide, (stage_range_preservation _ (by decide)).2.2.2.2.2⟩

/-! ### Batch error propagation (C1) -/

/-- Refutation of C1 as stated: with a format-failing entry first, the batch
run produces no summary at all — the exception escapes `main`'s loop — and
the following entry, which on its own would be counted as a success, is
never processed. -/
theorem format_error_aborts_batch_counterexample :
    runBatch [badFormatEntry, okEntry] = .error "file does not start with RIFF id"
  ∧ runBatch [okEntry] = .ok ⟨1, 42⟩ :=
  ⟨rfl, rfl⟩

lemma runEntry_ok_of_no_format (st : BatchState) (e : Entry)
    (h : ∀ m, e.src ≠ .formatError m) : ∃ st2, runEntry st e = .ok st2 := by
  cases he : e.src with
  | missing => exact ⟨st, by simp [runEntry, he]⟩
  | formatError m => exact absurd he (h m)
  | pcm raw nch rate =>
    cases hb : e.brr with
    | some sz =>
      exact ⟨⟨st.success + 1, st.total_brr_size + sz⟩, by simp [runEntry, he, hb]⟩
    | none => exact ⟨st, by simp [runEntry, he, hb]⟩

/-- C1 amended: a decoder FormatError is not recovered anywhere — the
exception propagates out of `main`'s loop, so the first entry whose source
decodes with a FormatError aborts the whole batch with that error text,
and the remaining entries are never processed (regardless of what they
are).  Entries before it that do not raise (missing sources, successful
decodes, even snesbrr failures) do not stop the run from reaching it. -/
theorem format_error_aborts_batch (pre post : List Entry) (e : Entry) (msg : String)
    (he : e.src = .formatError msg)
    (hpre : ∀ e2 ∈ pre, ∀ m, e2.src ≠ .formatError m) :
    runBatch (pre ++ e :: post) = .error msg := by
  unfold runBatch
  have main : ∀ (pre2 : List Entry), (∀ e2 ∈ pre2, ∀ m, e2.src ≠ .formatError m) →
      ∀ st, runBatchFrom st (pre2 ++ e :: post) = .error msg := by
    intro pre2
    induction pre2 with
    | nil =>
      intro _ st
      simp only [List.nil_append, runBatchFrom]
      have herr : runEntry st e = .error msg := by simp [runEntry, he]
      rw [herr]
    | cons a rest ih =>
      intro hpre2 st
      simp only [List.cons_append, runBatchFrom]
      obtain ⟨st2, hst2⟩ := runEntry_ok_of_no_format st a (hpre2 a (List.mem_cons_self a rest))
      rw [hst2]
      exact ih (fun e2 h2 => hpre2 e2 (List.mem_cons_of_mem _ h2)) st2
  exact main pre hpre ⟨0, 0⟩

theorem format_error_aborts_batch_witness :
    runBatch ([⟨Source.missing, 1, none⟩] ++
        (⟨Source.formatError "unknown format: 3", 1, some 3⟩ : Entry) ::
        [⟨Source.pcm [4, 4] 1 16000, 1, some 4⟩])
      = .error "unknown format: 3" :=
  format_error_aborts_batch _ _ _ _ rfl
    (by
      intro e2 h2 m hc
      rw [List.mem_singleton] at h2
      subst h2
      cases hc)

end ConvertSfx
